import Mathlib

/-!
Verification of the build-graph generator in `build.py`: the script walks an
Org-mode source tree, emits a ninja build description converting each `.org`
file to `.md` and copying each stray `.md` file (unless a converted file
claims the same output), resolves the Hugo site root from the output
directory, and finally invokes ninja.
-/

namespace Braindump

/-- A path segment (one named component of a filesystem path), as a list of
characters. -/
abbrev Seg : Type := List Char

/-- A path as its list of named segments.  For an absolute path this is
`Path.parts` without the leading root entry `"/"`: the root entry never equals
any named segment (in particular not the marker segment `content`), so the
backward search over `parts` is unaffected, and `Path(*parts[0:ci])`
corresponds to `List.take` on the named segments. -/
abbrev Pth : Type := List Seg

/-- Embeds `_ninja_escape` (build.py lines 78-80): `str(path).replace(" ", "$ ")`.
Python `str.replace` with the one-character needle `" "` rewrites every space
character to `"$ "` and leaves every other character unchanged. -/
def ninja_escape : List Char → List Char
  | [] => []
  | c :: rest => if c = ' ' then '$' :: ' ' :: ninja_escape rest else c :: ninja_escape rest

/-- Modelled from the spec: the graph grammar's escape rule, under which the
two-character sequence dollar-space denotes a literal space.  The external
build executor's parser is not part of this repository; this definition
follows the spec's description of its escaping grammar, for the round-trip
property. -/
def ninjaUnescape : List Char → List Char
  | [] => []
  | [c] => [c]
  | c1 :: c2 :: rest =>
      if c1 = '$' ∧ c2 = ' ' then ' ' :: ninjaUnescape rest
      else c1 :: ninjaUnescape (c2 :: rest)

/-- Joins path segments with the `/` separator, as `str` of a POSIX `Path`
renders its named parts. -/
def joinC : List Seg → List Char
  | [] => []
  | [c] => c
  | c :: c2 :: rest => c ++ '/' :: joinC (c2 :: rest)

/-- Renders an absolute POSIX path with the given named segments, as `str()`
does. -/
def pathStr (p : Pth) : List Char := '/' :: joinC p

/-- An absolute path as it appears as a token in build.ninja: rendered to a
string and ninja-escaped (build.py lines 78-88). -/
def escPath (p : Pth) : List Char := ninja_escape (pathStr p)

/-- Splits a list at its first `'.'`: the characters before the first dot and
the characters after it.  Applied to a reversed file name this locates the
last dot of the name, which is how `pathlib` computes `PurePath.suffix`. -/
def breakDot : List Char → Option (List Char × List Char)
  | [] => none
  | c :: rest =>
      if c = '.' then some ([], rest)
      else (breakDot rest).map (fun ab => (c :: ab.1, ab.2))

/-- The target extension `.md`. -/
def mdExt : List Char := ['.', 'm', 'd']

/-- The authoring extension `.org`. -/
def orgExt : List Char := ['.', 'o', 'r', 'g']

/-- Embeds `PurePath.with_suffix(".md")` on a file name, per `pathlib`: the
suffix of a name is its part from the last dot onward, provided that dot is
neither the first nor the last character of the name (so the hidden-file name
`".org"` has no suffix); `with_suffix` strips the old suffix when there is one
and appends `".md"`.  In `breakDot n.reverse = some (a, b)`, `a` holds the
characters after the last dot and `b` the (reversed) characters before it, so
the dot is not last exactly when `a ≠ []` and not first exactly when `b ≠ []`.
`_make_in_out` (build.py line 86) applies this to the relative path's last
component via `rf.with_suffix(".md")`. -/
def with_suffix_md (n : List Char) : List Char :=
  match breakDot n.reverse with
  | some (a, b) => if a ≠ [] ∧ b ≠ [] then b.reverse ++ mdExt else n ++ mdExt
  | none => n ++ mdExt

/-- Applies the `.md` suffix rewrite to the last segment of a relative path,
as `rf.with_suffix(".md")` does on a multi-component relative path. -/
def withSuffixMdLast : Pth → Pth
  | [] => []
  | [n] => [with_suffix_md n]
  | n :: n2 :: rest => n :: withSuffixMdLast (n2 :: rest)

/-- The two resolved roots (build.py lines 32-34). -/
structure Cfg where
  org_dir : Pth
  out_dir : Pth

/-- Embeds `_make_in_out` (build.py lines 83-88): for a file at relative path
`rf` under `org_dir`, the escaped input token `org_dir / rf` and the escaped
output token `out_dir / rf.with_suffix(".md")`, returned as
`(input_file, output_file)`. -/
def make_in_out (cfg : Cfg) (rf : Pth) : List Char × List Char :=
  (escPath (cfg.org_dir ++ rf), escPath (cfg.out_dir ++ withSuffixMdLast rf))

/-- The two ninja rules declared in build.ninja (build.py lines 96-101). -/
inductive Rule where
  | org2md
  | copy
deriving DecidableEq

/-- One `build` statement of the generated graph. -/
structure Edge where
  rule : Rule
  input : List Char
  output : List Char
deriving DecidableEq

/-- The Convert edge for one `.org` file (build.py lines 106-118). -/
def convertEdge (cfg : Cfg) (rf : Pth) : Edge :=
  ⟨Rule.org2md, (make_in_out cfg rf).1, (make_in_out cfg rf).2⟩

/-- The Copy edge for one `.md` file (build.py lines 124-131). -/
def copyEdge (cfg : Cfg) (rf : Pth) : Edge :=
  ⟨Rule.copy, (make_in_out cfg rf).1, (make_in_out cfg rf).2⟩

/-- Embeds the edge-emission loops (build.py lines 105-131): every `.org`
file yields an org2md edge and its escaped output token is recorded in
`out_files_main`; afterwards every `.md` file yields a COPY edge unless its
escaped output token is already in `out_files_main` (`if output_file not in
out_files_main`).  The `.org` loop completes before the `.md` loop begins, so
the membership test sees the full list. -/
def genEdges (cfg : Cfg) (orgs mds : List Pth) : List Edge :=
  let orgEdges := orgs.map (convertEdge cfg)
  let out_files_main := orgEdges.map Edge.output
  orgEdges ++ mds.filterMap (fun rf =>
    if (copyEdge cfg rf).output ∈ out_files_main then none else some (copyEdge cfg rf))

/-- The (unescaped) output path a source file maps to: `out_dir` joined with
the relative path whose last segment has the `.md` suffix rewrite applied. -/
def outPath (cfg : Cfg) (rf : Pth) : Pth := cfg.out_dir ++ withSuffixMdLast rf

/-- The marker segment `"content"`. -/
def contentSeg : Seg := "content".toList

/-- Embeds the backward search for `"content"` among the segments of
`out_dir` (build.py lines 41-47): `next(i for i in range(len(parts)-1, -1, -1)
if parts[i] == "content")`; `none` models the exhausted generator
(`StopIteration`). -/
def lastMarkerIdx (parts : Pth) : Option Nat :=
  (List.range parts.length).reverse.find? (fun i => decide (parts[i]? = some contentSeg))

/-- Embeds `hugo_dir = Path(*out_dir.parts[0:ci])` together with the
`StopIteration` handler (build.py lines 39-54): `none` is the missing-marker
failure path. -/
def hugo_dir (parts : Pth) : Option Pth :=
  (lastMarkerIdx parts).map (fun ci => parts.take ci)

/-- The rule-declaration header written first into build.ninja (build.py
lines 93-103), with the f-string interpolations as parameters; `obsidian`
selects the `post_proc` chain (build.py line 73). -/
def ruleHeaderTxt (initStr pubStr orgStr hugoStr obsStr : List Char) (obsidian : Bool) : List Char :=
  ("\nrule org2md\n  command = emacs -nw --batch -l ").toList ++ initStr
  ++ (" -l ").toList ++ pubStr
  ++ (" --eval \"(xb/publish \\\"").toList ++ orgStr
  ++ ("\\\" \\\"$in_\\\" \\\"").toList ++ hugoStr
  ++ ("\\\" \\\"$out_\\\" )\"").toList
  ++ (if obsidian then (" && ").toList ++ obsStr ++ (" $out").toList else [])
  ++ ("\n  description = org2md $in\n\nrule COPY\n  command = cp $in $out\n").toList

/-- One org2md build statement (build.py lines 112-118). -/
def orgBlockTxt (io : List Char × List Char) : List Char :=
  ("\nbuild ").toList ++ io.2 ++ (": org2md ").toList ++ io.1
  ++ ("\n    in_ = ").toList ++ io.1 ++ ("\n    out_ = ").toList ++ io.2 ++ ("\n").toList

/-- One COPY build statement (build.py lines 127-131). -/
def copyBlockTxt (io : List Char × List Char) : List Char :=
  ("\nbuild ").toList ++ io.2 ++ (": COPY ").toList ++ io.1 ++ ("\n").toList

/-- The full text written to build.ninja on one run (build.py lines 93-131):
the rule header, then one block per `.org` file, then one block per
non-colliding `.md` file.  `thisDir` is the directory of build.py, from which
the three helper-script paths are formed (build.py lines 58-61). -/
def ninjaText (cfg : Cfg) (hd : Pth) (thisDir : Pth) (obsidian : Bool)
    (orgs mds : List Pth) : List Char :=
  ruleHeaderTxt (pathStr (thisDir ++ ["init-tiny.el".toList]))
      (pathStr (thisDir ++ ["publish.el".toList]))
      (pathStr cfg.org_dir) (pathStr hd)
      (pathStr (thisDir ++ ["obs_postproc.py".toList])) obsidian
  ++ (orgs.map (fun f => orgBlockTxt (make_in_out cfg f))).flatten
  ++ (mds.filterMap (fun f =>
        if (make_in_out cfg f).2 ∈ orgs.map (fun g => (make_in_out cfg g).2)
        then none else some (copyBlockTxt (make_in_out cfg f)))).flatten

/-- The observable outcome of one invocation of build.py. -/
inductive RunOutcome where
  | missingMarker (exitCode : Nat)
  | ran (graph : List Char) (executorExit : Nat) (exitCode : Nat)
deriving DecidableEq

/-- Embeds the whole script (build.py lines 39-138).  When `out_dir` has no
`content` segment, the `StopIteration` handler prints guidance and calls
`exit()`, which in CPython raises `SystemExit(None)` and terminates the
process with status 0 -- before any scanning, any write of build.ninja, and
any executor invocation.  Otherwise build.ninja is generated and
`subprocess.call(["ninja", ...])` runs; its return value (ninja's exit code)
is discarded and the script falls off the end, so the process again exits
with status 0. -/
def runMain (outParts orgDir thisDir : Pth) (obsidian : Bool)
    (orgs mds : List Pth) (executorExit : Nat) : RunOutcome :=
  match hugo_dir outParts with
  | none => RunOutcome.missingMarker 0
  | some hd =>
      RunOutcome.ran (ninjaText ⟨orgDir, outParts⟩ hd thisDir obsidian orgs mds) executorExit 0

/-- The process exit status an outcome carries. -/
def exitCodeOf : RunOutcome → Nat
  | RunOutcome.missingMarker e => e
  | RunOutcome.ran _ _ e => e

/-- Whether the run reached the executor invocation. -/
def reachedExecutor : RunOutcome → Bool
  | RunOutcome.ran _ _ _ => true
  | RunOutcome.missingMarker _ => false

/-- A real path segment: nonempty and free of the separator. -/
def validSeg (c : Seg) : Prop := c ≠ [] ∧ '/' ∉ c

/-- All segments of a path are real segments. -/
def validPath (p : Pth) : Prop := ∀ c ∈ p, validSeg c

instance (c : Seg) : Decidable (validSeg c) :=
  inferInstanceAs (Decidable (c ≠ [] ∧ '/' ∉ c))

instance (p : Pth) : Decidable (validPath p) :=
  inferInstanceAs (Decidable (∀ c ∈ p, validSeg c))

/-! ### Properties of the escaper -/

theorem ninja_escape_nil_iff (l : List Char) : ninja_escape l = [] ↔ l = [] := by
  cases l with
  | nil => simp [ninja_escape]
  | cons c rest => simp only [ninja_escape]; split <;> simp

theorem ninja_escape_ne_space_cons (l t : List Char) : ninja_escape l ≠ ' ' :: t := by
  cases l with
  | nil => simp [ninja_escape]
  | cons c rest =>
    simp only [ninja_escape]
    split
    · simp
    · rename_i hc
      simp [hc]

theorem ninja_escape_injective : Function.Injective ninja_escape := by
  intro l1 l2 h
  induction l1 generalizing l2 with
  | nil =>
    cases l2 with
    | nil => rfl
    | cons d s =>
      exact absurd ((ninja_escape_nil_iff (d :: s)).mp h.symm) (by simp)
  | cons c r ih =>
    cases l2 with
    | nil =>
      exact absurd ((ninja_escape_nil_iff (c :: r)).mp h) (by simp)
    | cons d s =>
      by_cases hc : c = ' ' <;> by_cases hd : d = ' '
      · simp only [ninja_escape, if_pos hc, if_pos hd, List.cons.injEq, true_and] at h
        rw [hc, hd, ih h]
      · simp only [ninja_escape, if_pos hc, if_neg hd, List.cons.injEq] at h
        exact absurd h.2.symm (ninja_escape_ne_space_cons s _)
      · simp only [ninja_escape, if_neg hc, if_pos hd, List.cons.injEq] at h
        exact absurd h.2 (ninja_escape_ne_space_cons r _)
      · simp only [ninja_escape, if_neg hc, if_neg hd, List.cons.injEq] at h
        rw [h.1, ih h.2]

theorem ninja_escape_eq_bind (l : List Char) :
    ninja_escape l = l.flatMap (fun c => if c = ' ' then ['$', ' '] else [c]) := by
  induction l with
  | nil => rfl
  | cons c rest ih =>
    simp only [ninja_escape, List.flatMap_cons, ih]
    split <;> simp

theorem ninjaUnescape_ninja_escape (l : List Char) (h : '$' ∉ l) :
    ninjaUnescape (ninja_escape l) = l := by
  induction l with
  | nil => rfl
  | cons c rest ih =>
    have hc : c ≠ '$' := fun hh => h (hh ▸ List.mem_cons_self c rest)
    have hrest : '$' ∉ rest := fun hm => h (List.mem_cons_of_mem _ hm)
    by_cases hsp : c = ' '
    · subst hsp
      simp only [ninja_escape, if_pos rfl, ninjaUnescape, and_self, if_pos]
      rw [ih hrest]
    · simp only [ninja_escape, if_neg hsp]
      cases he : ninja_escape rest with
      | nil =>
        rw [(ninja_escape_nil_iff rest).mp he]
        rfl
      | cons d t =>
        rw [ninjaUnescape.eq_3, if_neg (fun hand => hc hand.1), ← he, ih hrest]

/-! ### Properties of path rendering -/

theorem joinC_ne_nil (c : Seg) (rest : List Seg) (hc : c ≠ []) : joinC (c :: rest) ≠ [] := by
  cases rest with
  | nil => simpa [joinC] using hc
  | cons c2 r => simp [joinC, hc]

theorem slashfree_sep_cancel (c d x y : List Char) (hc : '/' ∉ c) (hd : '/' ∉ d)
    (h : c ++ '/' :: x = d ++ '/' :: y) : c = d ∧ x = y := by
  induction c generalizing d with
  | nil =>
    cases d with
    | nil => simpa using h
    | cons e d' =>
      simp only [List.nil_append, List.cons_append, List.cons.injEq] at h
      exact absurd (h.1 ▸ List.mem_cons_self e d') hd
  | cons a c' ih =>
    cases d with
    | nil =>
      simp only [List.cons_append, List.nil_append, List.cons.injEq] at h
      exact absurd (h.1 ▸ List.mem_cons_self a c') hc
    | cons e d' =>
      simp only [List.cons_append, List.cons.injEq] at h
      have hc' : '/' ∉ c' := fun m => hc (List.mem_cons_of_mem _ m)
      have hd' : '/' ∉ d' := fun m => hd (List.mem_cons_of_mem _ m)
      obtain ⟨h3, h4⟩ := ih d' hc' hd' h.2
      exact ⟨by rw [h.1, h3], h4⟩

theorem joinC_injOn (p q : List Seg) (hp : validPath p) (hq : validPath q)
    (h : joinC p = joinC q) : p = q := by
  induction p generalizing q with
  | nil =>
    cases q with
    | nil => rfl
    | cons d q' =>
      exact absurd h.symm (joinC_ne_nil d q' (hq d (List.mem_cons_self d q')).1)
  | cons c p' ih =>
    cases q with
    | nil =>
      exact absurd h (joinC_ne_nil c p' (hp c (List.mem_cons_self c p')).1)
    | cons d q' =>
      have hcv := hp c (List.mem_cons_self c p')
      have hdv := hq d (List.mem_cons_self d q')
      have hp' : validPath p' := fun s hs => hp s (List.mem_cons_of_mem _ hs)
      have hq' : validPath q' := fun s hs => hq s (List.mem_cons_of_mem _ hs)
      cases p' with
      | nil =>
        cases q' with
        | nil => rw [show (joinC [c] = c) from rfl, show (joinC [d] = d) from rfl] at h; rw [h]
        | cons e q'' =>
          rw [show (joinC [c] = c) from rfl, joinC.eq_3] at h
          exact absurd (h ▸ List.mem_append_right d (List.mem_cons_self '/' _)) hcv.2
      | cons b p'' =>
        cases q' with
        | nil =>
          rw [show (joinC [d] = d) from rfl, joinC.eq_3] at h
          exact absurd (h ▸ List.mem_append_right c (List.mem_cons_self '/' _)) hdv.2
        | cons e q'' =>
          rw [joinC.eq_3, joinC.eq_3] at h
          obtain ⟨h1, h2⟩ := slashfree_sep_cancel c d _ _ hcv.2 hdv.2 h
          rw [h1, ih (e :: q'') hp' hq' h2]

theorem pathStr_injOn (p q : Pth) (hp : validPath p) (hq : validPath q)
    (h : pathStr p = pathStr q) : p = q :=
  joinC_injOn p q hp hq (List.cons.inj h).2

theorem escPath_injOn (p q : Pth) (hp : validPath p) (hq : validPath q)
    (h : escPath p = escPath q) : p = q :=
  pathStr_injOn p q hp hq (ninja_escape_injective h)

theorem validPath_append (p q : Pth) (hp : validPath p) (hq : validPath q) :
    validPath (p ++ q) := by
  intro c hc
  rcases List.mem_append.mp hc with h | h
  · exact hp c h
  · exact hq c h

/-! ### Properties of the suffix rewrite -/

theorem breakDot_eq_some (a b : List Char) (ha : '.' ∉ a) :
    breakDot (a ++ '.' :: b) = some (a, b) := by
  induction a with
  | nil => simp [breakDot]
  | cons c a' ih =>
    have hc : c ≠ '.' := fun hh => ha (hh ▸ List.mem_cons_self c a')
    have ha' : '.' ∉ a' := fun hm => ha (List.mem_cons_of_mem _ hm)
    simp [breakDot, hc, ih ha']

theorem breakDot_some_decomp (l a b : List Char) (h : breakDot l = some (a, b)) :
    l = a ++ '.' :: b := by
  induction l generalizing a b with
  | nil => simp [breakDot] at h
  | cons c rest ih =>
    simp only [breakDot] at h
    by_cases hc : c = '.'
    · rw [if_pos hc] at h
      obtain ⟨rfl, rfl⟩ := Prod.mk.injEq _ _ _ _ ▸ Option.some.inj h
      simp [hc]
    · rw [if_neg hc] at h
      cases hrec : breakDot rest with
      | none => rw [hrec] at h; simp at h
      | some ab =>
        obtain ⟨a', b'⟩ := ab
        rw [hrec] at h
        obtain ⟨h1, h2⟩ : c :: a' = a ∧ b' = b := by simpa using h
        subst h1
        subst h2
        exact congrArg (c :: ·) (ih a' b' hrec)

theorem with_suffix_md_ext_append (s : List Char) :
    with_suffix_md (s ++ mdExt) = if s = [] then (s ++ mdExt) ++ mdExt else s ++ mdExt := by
  have hrev : (s ++ mdExt).reverse = ['d', 'm'] ++ '.' :: s.reverse := by
    rw [List.reverse_append]
    rfl
  rw [with_suffix_md, hrev, breakDot_eq_some ['d', 'm'] s.reverse (by decide)]
  by_cases hs : s = []
  · subst hs
    simp
  · have hsr : s.reverse ≠ [] := by simpa using hs
    simp [hs, hsr]

theorem with_suffix_md_org_append (s : List Char) :
    with_suffix_md (s ++ orgExt) = if s = [] then (s ++ orgExt) ++ mdExt else s ++ mdExt := by
  have hrev : (s ++ orgExt).reverse = ['g', 'r', 'o'] ++ '.' :: s.reverse := by
    rw [List.reverse_append]
    rfl
  rw [with_suffix_md, hrev, breakDot_eq_some ['g', 'r', 'o'] s.reverse (by decide)]
  by_cases hs : s = []
  · subst hs
    simp
  · have hsr : s.reverse ≠ [] := by simpa using hs
    simp [hs, hsr]

theorem validSeg_with_suffix_md (n : Seg) (h : validSeg n) : validSeg (with_suffix_md n) := by
  have hmd : ∀ m : List Char, '/' ∉ m → validSeg (m ++ mdExt) := by
    intro m hm
    refine ⟨by simp [mdExt], fun hmem => ?_⟩
    rcases List.mem_append.mp hmem with h1 | h1
    · exact hm h1
    · simp [mdExt] at h1
  rw [with_suffix_md]
  cases hb : breakDot n.reverse with
  | none => exact hmd n h.2
  | some ab =>
    obtain ⟨a, b⟩ := ab
    dsimp only
    by_cases hcond : a ≠ [] ∧ b ≠ []
    · rw [if_pos hcond]
      refine hmd b.reverse fun hmem => ?_
      have hbn : '/' ∈ n.reverse := by
        rw [breakDot_some_decomp n.reverse a b hb]
        exact List.mem_append_right a (List.mem_cons_of_mem _ (List.mem_reverse.mp hmem))
      exact h.2 (List.mem_reverse.mp hbn)
    · rw [if_neg hcond]
      exact hmd n h.2

theorem withSuffixMdLast_append_single (d : Pth) (n : Seg) :
    withSuffixMdLast (d ++ [n]) = d ++ [with_suffix_md n] := by
  induction d with
  | nil => rfl
  | cons c d' ih =>
    cases d' with
    | nil => rfl
    | cons e d'' =>
      rw [List.cons_append, List.cons_append, withSuffixMdLast.eq_3]
      rw [List.cons_append] at ih
      rw [ih]
      rfl

theorem validPath_withSuffixMdLast (p : Pth) (h : validPath p) :
    validPath (withSuffixMdLast p) := by
  induction p with
  | nil => exact h
  | cons c p' ih =>
    cases p' with
    | nil =>
      intro x hx
      rw [withSuffixMdLast] at hx
      rcases List.mem_singleton.mp hx with rfl
      exact validSeg_with_suffix_md c (h c (List.mem_cons_self c []))
    | cons e p'' =>
      intro x hx
      rw [withSuffixMdLast.eq_3] at hx
      rcases List.mem_cons.mp hx with rfl | hx'
      · exact h x (List.mem_cons_self x _)
      · exact ih (fun s hs => h s (List.mem_cons_of_mem _ hs)) x hx'

/-! ### Properties of the marker search -/

theorem find?_rev_range_spec (p : Nat → Bool) (n i : Nat)
    (h : (List.range n).reverse.find? p = some i) :
    i < n ∧ p i = true ∧ ∀ j, i < j → j < n → p j = false := by
  induction n generalizing i with
  | zero => simp [List.range_zero] at h
  | succ n ihn =>
    rw [List.range_succ, List.reverse_append, List.reverse_cons, List.reverse_nil,
      List.nil_append, List.singleton_append] at h
    cases hp : p n with
    | true =>
      rw [List.find?_cons_of_pos _ hp] at h
      obtain hni : i = n := (Option.some.inj h).symm
      subst hni
      exact ⟨Nat.lt_succ_self i, hp, fun j h1 h2 => absurd h2 (by omega)⟩
    | false =>
      rw [List.find?_cons_of_neg _ (by simp [hp])] at h
      obtain ⟨h1, h2, h3⟩ := ihn i h
      refine ⟨Nat.lt_succ_of_lt h1, h2, fun j hj1 hj2 => ?_⟩
      by_cases hjn : j = n
      · rw [hjn, hp]
      · exact h3 j hj1 (by omega)

theorem lastMarkerIdx_spec (parts : Pth) (ci : Nat) (h : lastMarkerIdx parts = some ci) :
    ci < parts.length ∧ parts[ci]? = some contentSeg ∧
      ∀ j, ci < j → parts[j]? ≠ some contentSeg := by
  obtain ⟨h1, h2, h3⟩ := find?_rev_range_spec _ _ _ h
  refine ⟨h1, of_decide_eq_true h2, fun j hj hcontra => ?_⟩
  by_cases hjl : j < parts.length
  · have hfalse := h3 j hj hjl
    rw [hcontra] at hfalse
    simp at hfalse
  · rw [List.getElem?_eq_none (by omega)] at hcontra
    exact Option.noConfusion hcontra

theorem lastMarkerIdx_eq_none (parts : Pth) (h : contentSeg ∉ parts) :
    lastMarkerIdx parts = none := by
  rw [lastMarkerIdx, List.find?_eq_none]
  intro i _
  simp only [decide_eq_true_eq]
  intro hcontra
  exact h (List.mem_iff_getElem?.mpr ⟨i, hcontra⟩)

/-! ### Structure of the generated edge list -/

theorem copyEdge_ne_convertEdge (cfg : Cfg) (rf rg : Pth) :
    copyEdge cfg rf ≠ convertEdge cfg rg := by
  simp [copyEdge, convertEdge]

theorem make_in_out_fst_inj (cfg : Cfg) (horg : validPath cfg.org_dir) (f g : Pth)
    (hf : validPath f) (hg : validPath g)
    (h : (make_in_out cfg f).1 = (make_in_out cfg g).1) : f = g := by
  have h2 := escPath_injOn _ _ (validPath_append _ _ horg hf) (validPath_append _ _ horg hg) h
  exact List.append_cancel_left h2

theorem make_in_out_snd_eq_iff (cfg : Cfg) (hout : validPath cfg.out_dir) (f g : Pth)
    (hf : validPath f) (hg : validPath g) :
    (make_in_out cfg f).2 = (make_in_out cfg g).2 ↔ outPath cfg f = outPath cfg g := by
  constructor
  · intro h
    exact escPath_injOn _ _
      (validPath_append _ _ hout (validPath_withSuffixMdLast _ hf))
      (validPath_append _ _ hout (validPath_withSuffixMdLast _ hg)) h
  · intro h
    show escPath (outPath cfg f) = escPath (outPath cfg g)
    rw [h]

theorem copyEdge_inj (cfg : Cfg) (horg : validPath cfg.org_dir) (f g : Pth)
    (hf : validPath f) (hg : validPath g) (h : copyEdge cfg f = copyEdge cfg g) : f = g := by
  have := congrArg Edge.input h
  exact make_in_out_fst_inj cfg horg f g hf hg this

theorem copyEdge_mem_genEdges_iff (cfg : Cfg) (orgs mds : List Pth) (f : Pth)
    (horg : validPath cfg.org_dir) (hout : validPath cfg.out_dir)
    (horgs : ∀ g ∈ orgs, validPath g) (hmds : ∀ g ∈ mds, validPath g)
    (hfm : f ∈ mds) :
    copyEdge cfg f ∈ genEdges cfg orgs mds ↔ ∀ g ∈ orgs, outPath cfg g ≠ outPath cfg f := by
  have hf : validPath f := hmds f hfm
  unfold genEdges
  simp only [List.mem_append, List.mem_filterMap, List.mem_map]
  constructor
  · rintro (⟨g, _, heq⟩ | ⟨g, hgmem, hsome⟩)
    · exact absurd heq.symm (copyEdge_ne_convertEdge cfg f g)
    · split at hsome
      · exact Option.noConfusion hsome
      · rename_i hnotin
        have hgf : g = f :=
          copyEdge_inj cfg horg g f (hmds g hgmem) hf (Option.some.inj hsome)
        subst hgf
        intro g2 hg2 houteq
        apply hnotin
        refine List.mem_map.mpr ⟨convertEdge cfg g2, List.mem_map.mpr ⟨g2, hg2, rfl⟩, ?_⟩
        show (make_in_out cfg g2).2 = (make_in_out cfg g).2
        exact (make_in_out_snd_eq_iff cfg hout g2 g (horgs g2 hg2) hf).mpr houteq
  · intro hall
    right
    refine ⟨f, hfm, ?_⟩
    have hnotin : (copyEdge cfg f).output ∉
        (orgs.map (convertEdge cfg)).map Edge.output := by
      intro hin
      obtain ⟨e, he, hco⟩ := List.mem_map.mp hin
      obtain ⟨g2, hg2, hconv⟩ := List.mem_map.mp he
      subst hconv
      exact hall g2 hg2 ((make_in_out_snd_eq_iff cfg hout g2 f (horgs g2 hg2) hf).mp hco)
    rw [if_neg hnotin]

theorem countP_eq_one_of_unique {α : Type} (l : List α) (x : α) (p : α → Bool)
    (hx : x ∈ l) (hnd : l.Nodup) (hp : ∀ g ∈ l, (p g = true ↔ g = x)) :
    l.countP p = 1 := by
  induction l with
  | nil => simp at hx
  | cons c rest ih =>
    rw [List.countP_cons]
    rcases List.mem_cons.mp hx with rfl | hxr
    · have hc : p x = true := (hp x (List.mem_cons_self x rest)).mpr rfl
      have hz : rest.countP p = 0 := by
        rw [List.countP_eq_zero]
        intro g hg hgp
        have hgx := (hp g (List.mem_cons_of_mem _ hg)).mp hgp
        exact (List.nodup_cons.mp hnd).1 (hgx ▸ hg)
      simp [hc, hz]
    · have hc : ¬p c = true := by
        intro hc2
        have hcx := (hp c (List.mem_cons_self c rest)).mp hc2
        exact (List.nodup_cons.mp hnd).1 (hcx ▸ hxr)
      rw [ih hxr (List.nodup_cons.mp hnd).2 (fun g hg => hp g (List.mem_cons_of_mem _ hg))]
      simp [hc]

theorem genEdges_countP_convert_input (cfg : Cfg) (orgs mds : List Pth) (rf : Pth)
    (horg : validPath cfg.org_dir) (horgs : ∀ g ∈ orgs, validPath g)
    (hnd : orgs.Nodup) (hrf : rf ∈ orgs) :
    (genEdges cfg orgs mds).countP
      (fun e => decide (e.rule = Rule.org2md ∧ e.input = (make_in_out cfg rf).1)) = 1 := by
  unfold genEdges
  rw [List.countP_append]
  have hmd0 : (mds.filterMap (fun rg =>
      if (copyEdge cfg rg).output ∈ (orgs.map (convertEdge cfg)).map Edge.output
      then none else some (copyEdge cfg rg))).countP
      (fun e => decide (e.rule = Rule.org2md ∧ e.input = (make_in_out cfg rf).1)) = 0 := by
    rw [List.countP_eq_zero]
    intro e he
    obtain ⟨g, _, hsome⟩ := List.mem_filterMap.mp he
    split at hsome
    · exact Option.noConfusion hsome
    · obtain rfl := Option.some.inj hsome
      simp [copyEdge]
  rw [hmd0, List.countP_map]
  refine countP_eq_one_of_unique orgs rf _ hrf hnd fun g hg => ?_
  simp only [Function.comp_apply, decide_eq_true_eq]
  constructor
  · intro hand
    exact make_in_out_fst_inj cfg horg g rf (horgs g hg) (horgs rf hrf) hand.2
  · rintro rfl
    exact ⟨rfl, rfl⟩

/-! ### Claim theorems -/

/-- Claim C5: the escaper replaces every literal space character in a path
with the two-character sequence dollar-space and leaves all other characters
unchanged (character-by-character expansion), and for every path not
containing the escape marker `'$'`, unescaping the escaped token per the
graph grammar yields back the original path string (round trip). -/
theorem escape_round_trip (p : List Char) (h : '$' ∉ p) :
    ninja_escape p = p.flatMap (fun c => if c = ' ' then ['$', ' '] else [c]) ∧
    ninjaUnescape (ninja_escape p) = p :=
  ⟨ninja_escape_eq_bind p, ninjaUnescape_ninja_escape p h⟩

/-- Witness for C5 at the concrete path `"a b/c d"`. -/
theorem escape_round_trip_witness :
    '$' ∉ ("a b/c d").toList ∧
    ninjaUnescape (ninja_escape ("a b/c d").toList) = ("a b/c d").toList :=
  ⟨by decide, (escape_round_trip ("a b/c d").toList (by decide)).2⟩

/-- Counterexample to claim C4 as stated: on the destination
`/a/b/content/x/content/y` (named segments `a, b, content, x, content, y`)
the resolver returns `/a/b/content/x`, not `/a/b/x` as the claim's second
example asserts. -/
theorem site_root_resolution_cex :
    hugo_dir ["a".toList, "b".toList, contentSeg, "x".toList, contentSeg, "y".toList]
      = some ["a".toList, "b".toList, contentSeg, "x".toList] ∧
    (["a".toList, "b".toList, contentSeg, "x".toList] : Pth)
      ≠ ["a".toList, "b".toList, "x".toList] := by
  decide

/-- Claim C4 (amended): resolveSiteRoot returns the path prefix consisting of
all segments strictly before the last occurrence of the marker segment
`content`: `resolveSiteRoot("/a/b/content/posts") = "/a/b"`,
`resolveSiteRoot("/a/b/content/x/content/y") = "/a/b/content/x"`, and when no
segment equals the marker it fails with MissingMarker (`none`). -/
theorem site_root_resolution (parts : Pth) (ci : Nat)
    (h : lastMarkerIdx parts = some ci) :
    hugo_dir parts = some (parts.take ci) ∧
    parts[ci]? = some contentSeg ∧
    (∀ j, ci < j → parts[j]? ≠ some contentSeg) ∧
    hugo_dir ["a".toList, "b".toList, contentSeg, "posts".toList]
      = some ["a".toList, "b".toList] ∧
    hugo_dir ["a".toList, "b".toList, contentSeg, "x".toList, contentSeg, "y".toList]
      = some ["a".toList, "b".toList, contentSeg, "x".toList] ∧
    hugo_dir ["a".toList, "b".toList, "posts".toList] = none ∧
    (∀ q : Pth, contentSeg ∉ q → hugo_dir q = none) := by
  obtain ⟨_, h2, h3⟩ := lastMarkerIdx_spec parts ci h
  refine ⟨?_, h2, h3, by decide, by decide, by decide, ?_⟩
  · rw [hugo_dir, h]
    rfl
  · intro q hq
    rw [hugo_dir, lastMarkerIdx_eq_none q hq]
    rfl

/-- Witness for C4 (amended) at `/a/b/content/posts`, whose last marker index
is 2. -/
theorem site_root_resolution_witness :
    lastMarkerIdx ["a".toList, "b".toList, contentSeg, "posts".toList] = some 2 ∧
    hugo_dir ["a".toList, "b".toList, contentSeg, "posts".toList]
      = some ["a".toList, "b".toList] :=
  ⟨by decide, (site_root_resolution _ 2 (by decide)).1⟩

/-- Claim C2: a pass-through `.md` file produces a Copy edge in the generated
graph iff no Primary `.org` file maps to the same output path; when a Primary
file claims that output path the Copy edge is silently absent (Primary
precedence), and the outcome does not depend on the scan order of files
within each kind (it is invariant under permuting either scan). -/
theorem passthrough_copy_iff (cfg : Cfg) (orgs mds : List Pth) (f : Pth)
    (horg : validPath cfg.org_dir) (hout : validPath cfg.out_dir)
    (horgs : ∀ g ∈ orgs, validPath g) (hmds : ∀ g ∈ mds, validPath g)
    (hfm : f ∈ mds) :
    (copyEdge cfg f ∈ genEdges cfg orgs mds ↔ ∀ g ∈ orgs, outPath cfg g ≠ outPath cfg f) ∧
    (∀ orgs2 mds2, orgs.Perm orgs2 → mds.Perm mds2 →
      (copyEdge cfg f ∈ genEdges cfg orgs2 mds2 ↔ copyEdge cfg f ∈ genEdges cfg orgs mds)) := by
  have hmain := copyEdge_mem_genEdges_iff cfg orgs mds f horg hout horgs hmds hfm
  refine ⟨hmain, fun orgs2 mds2 hop hmp => ?_⟩
  have horgs2 : ∀ g ∈ orgs2, validPath g := fun g hg => horgs g (hop.mem_iff.mpr hg)
  have hmds2 : ∀ g ∈ mds2, validPath g := fun g hg => hmds g (hmp.mem_iff.mpr hg)
  have hfm2 : f ∈ mds2 := hmp.mem_iff.mp hfm
  rw [copyEdge_mem_genEdges_iff cfg orgs2 mds2 f horg hout horgs2 hmds2 hfm2, hmain]
  exact ⟨fun hall g hg => hall g (hop.mem_iff.mp hg),
    fun hall g hg => hall g (hop.mem_iff.mpr hg)⟩

/-- Witness for C2: source tree with Primary `a.org` and pass-through `a.md`,
`b.md`; the characterization is instantiated at `b.md`. -/
theorem passthrough_copy_iff_witness :
    (["b.md".toList] : Pth) ∈ [["a.md".toList], ["b.md".toList]] ∧
    (copyEdge ⟨["i".toList], ["o".toList]⟩ ["b.md".toList] ∈
        genEdges ⟨["i".toList], ["o".toList]⟩ [["a.org".toList]]
          [["a.md".toList], ["b.md".toList]] ↔
      ∀ g ∈ [["a.org".toList]],
        outPath ⟨["i".toList], ["o".toList]⟩ g ≠
          outPath ⟨["i".toList], ["o".toList]⟩ ["b.md".toList]) :=
  ⟨by decide,
    (passthrough_copy_iff ⟨["i".toList], ["o".toList]⟩ [["a.org".toList]]
      [["a.md".toList], ["b.md".toList]] ["b.md".toList]
      (by decide) (by decide) (by decide) (by decide) (by decide)).1⟩

/-- Counterexample to claim C3 as stated: the Primary file named exactly
`".org"` (empty stem) yields a Convert edge whose output's final component is
`".org.md"` (suffix appended, since pathlib gives the hidden-file name
`".org"` no suffix), not `".md"` (extension replaced) as the claim requires:
the graph for that single source file contains exactly one edge, whose output
token differs from the token of `out_dir/".md"`. -/
theorem primary_convert_edge_cex :
    genEdges ⟨["i".toList], ["o".toList]⟩ [[".org".toList]] [] =
      [⟨Rule.org2md, escPath ["i".toList, ".org".toList],
        escPath ["o".toList, ".org.md".toList]⟩] ∧
    escPath ["o".toList, ".org.md".toList] ≠ escPath ["o".toList, ".md".toList] := by
  decide

/-- Claim C3 (amended): every Primary `.org` file under sourceRoot produces
exactly one Convert edge; its output path equals destinationRoot joined with
the file's relative path, whose final component `s ++ ".org"` has the
trailing authoring extension replaced by `.md` when the stem `s` is nonempty,
while a file whose final component is exactly `".org"` (empty stem) instead
has `.md` appended, yielding `".org.md"`. -/
theorem primary_convert_edge (cfg : Cfg) (orgs mds : List Pth) (rf d : Pth) (s : List Char)
    (horg : validPath cfg.org_dir) (horgs : ∀ g ∈ orgs, validPath g)
    (hnd : orgs.Nodup) (hrf : rf ∈ orgs) (hshape : rf = d ++ [s ++ orgExt]) :
    convertEdge cfg rf ∈ genEdges cfg orgs mds ∧
    (genEdges cfg orgs mds).countP
      (fun e => decide (e.rule = Rule.org2md ∧ e.input = (make_in_out cfg rf).1)) = 1 ∧
    (convertEdge cfg rf).output =
      escPath (cfg.out_dir ++ d ++ [if s = [] then (s ++ orgExt) ++ mdExt else s ++ mdExt]) := by
  refine ⟨List.mem_append_left _ (List.mem_map.mpr ⟨rf, hrf, rfl⟩),
    genEdges_countP_convert_input cfg orgs mds rf horg horgs hnd hrf, ?_⟩
  show escPath (cfg.out_dir ++ withSuffixMdLast rf) = _
  rw [hshape, withSuffixMdLast_append_single, with_suffix_md_org_append]
  exact congrArg escPath (List.append_assoc cfg.out_dir d _).symm

/-- Witness for C3 (amended) on the single Primary file `a.org`. -/
theorem primary_convert_edge_witness :
    (["a.org".toList] : Pth) = [] ++ ["a".toList ++ orgExt] ∧
    (convertEdge ⟨["i".toList], ["o".toList]⟩ ["a.org".toList] ∈
        genEdges ⟨["i".toList], ["o".toList]⟩ [["a.org".toList]] [] ∧
      (genEdges ⟨["i".toList], ["o".toList]⟩ [["a.org".toList]] []).countP
        (fun e => decide (e.rule = Rule.org2md ∧
          e.input = (make_in_out ⟨["i".toList], ["o".toList]⟩ ["a.org".toList]).1)) = 1 ∧
      (convertEdge ⟨["i".toList], ["o".toList]⟩ ["a.org".toList]).output =
        escPath (["o".toList] ++ [] ++
          [if "a".toList = [] then ("a".toList ++ orgExt) ++ mdExt else "a".toList ++ mdExt])) :=
  ⟨by decide,
    primary_convert_edge ⟨["i".toList], ["o".toList]⟩ [["a.org".toList]] [] ["a.org".toList]
      [] ("a".toList) (by decide) (by decide) (by decide) (by decide) (by decide)⟩

/-- Claim C8: no deduplication is performed among Primary files: if the
`.org` files at distinct positions `i ≠ j` map to the same output path, both
Convert edges are still emitted at those positions, and the number of Convert
edges in the graph equals the number of `.org` files (none is dropped). -/
theorem primary_no_dedup (cfg : Cfg) (orgs mds : List Pth) (i j : Nat)
    (hi : i < orgs.length) (hj : j < orgs.length) (hij : i ≠ j)
    (hdist : orgs[i] ≠ orgs[j])
    (hcol : outPath cfg (orgs[i]) = outPath cfg (orgs[j])) :
    (genEdges cfg orgs mds)[i]? = some (convertEdge cfg (orgs[i])) ∧
    (genEdges cfg orgs mds)[j]? = some (convertEdge cfg (orgs[j])) ∧
    (genEdges cfg orgs mds).countP (fun e => decide (e.rule = Rule.org2md)) = orgs.length := by
  have hgen : ∀ k, ∀ hk : k < orgs.length,
      (genEdges cfg orgs mds)[k]? = some (convertEdge cfg (orgs[k])) := by
    intro k hk
    unfold genEdges
    rw [List.getElem?_append_left (by simpa using hk), List.getElem?_map,
      List.getElem?_eq_getElem hk]
    rfl
  refine ⟨hgen i hi, hgen j hj, ?_⟩
  unfold genEdges
  rw [List.countP_append]
  have h1 : (orgs.map (convertEdge cfg)).countP
      (fun e => decide (e.rule = Rule.org2md)) = orgs.length := by
    rw [List.countP_map]
    rw [List.countP_eq_length]
    intro g _
    simp [convertEdge]
  have h2 : (mds.filterMap (fun rg =>
      if (copyEdge cfg rg).output ∈ (orgs.map (convertEdge cfg)).map Edge.output
      then none else some (copyEdge cfg rg))).countP
      (fun e => decide (e.rule = Rule.org2md)) = 0 := by
    rw [List.countP_eq_zero]
    intro e he
    obtain ⟨g, _, hsome⟩ := List.mem_filterMap.mp he
    split at hsome
    · exact Option.noConfusion hsome
    · obtain rfl := Option.some.inj hsome
      simp [copyEdge]
  rw [h1, h2]
  exact Nat.add_zero orgs.length

/-- Witness for C8: the two distinct Primary files `".org"` and `".org.org"`
both map to the output name `".org.md"`, and both edges are emitted. -/
theorem primary_no_dedup_witness :
    ([".org".toList] : Pth) ≠ [".org.org".toList] ∧
    outPath ⟨["i".toList], ["o".toList]⟩ [".org".toList]
      = outPath ⟨["i".toList], ["o".toList]⟩ [".org.org".toList] ∧
    (genEdges ⟨["i".toList], ["o".toList]⟩ [[".org".toList], [".org.org".toList]] [])[0]?
      = some (convertEdge ⟨["i".toList], ["o".toList]⟩ [".org".toList]) ∧
    (genEdges ⟨["i".toList], ["o".toList]⟩ [[".org".toList], [".org.org".toList]] [])[1]?
      = some (convertEdge ⟨["i".toList], ["o".toList]⟩ [".org.org".toList]) ∧
    (genEdges ⟨["i".toList], ["o".toList]⟩ [[".org".toList], [".org.org".toList]] []).countP
      (fun e => decide (e.rule = Rule.org2md)) = 2 := by
  have h := primary_no_dedup ⟨["i".toList], ["o".toList]⟩
    [[".org".toList], [".org.org".toList]] [] 0 1
    (by decide) (by decide) (by decide) (by decide) (by decide)
  exact ⟨by decide, by decide, h.1, h.2.1, h.2.2⟩

/-- Claim C9: the edge mapper applies the `.md` suffix replacement uniformly
to pass-through files as well as Primary files (the Copy edge goes through
the same `with_suffix` rewrite); the rewrite is the identity on a name
`s ++ ".md"` exactly when the stem `s` is nonempty, whereas the name exactly
`".md"` (empty stem) is mapped to `".md.md"`, breaking the one-to-one
mirroring of relative paths. -/
theorem passthrough_suffix_rewrite (s : List Char) (d : Pth) :
    (with_suffix_md (s ++ mdExt) = s ++ mdExt ↔ s ≠ []) ∧
    withSuffixMdLast (d ++ [mdExt]) = d ++ [mdExt ++ mdExt] ∧
    (∀ cfg : Cfg, ∀ rf : Pth, copyEdge cfg rf =
      ⟨Rule.copy, escPath (cfg.org_dir ++ rf),
        escPath (cfg.out_dir ++ withSuffixMdLast rf)⟩) := by
  refine ⟨?_, ?_, fun cfg rf => rfl⟩
  · rw [with_suffix_md_ext_append]
    constructor
    · intro h hs
      subst hs
      simp [mdExt] at h
    · intro hs
      rw [if_neg hs]
  · rw [withSuffixMdLast_append_single,
      show with_suffix_md mdExt = mdExt ++ mdExt from by decide]

/-- Witness for C9 at the names `"a.md"` and `".md"`. -/
theorem passthrough_suffix_rewrite_witness :
    with_suffix_md ("a".toList ++ mdExt) = "a".toList ++ mdExt ∧
    withSuffixMdLast (["x".toList] ++ [mdExt]) = ["x".toList] ++ [mdExt ++ mdExt] :=
  ⟨(passthrough_suffix_rewrite ("a".toList) ["x".toList]).1.mpr (by decide),
   (passthrough_suffix_rewrite ("a".toList) ["x".toList]).2.1⟩

/-- Claim C7: graph generation is idempotent and deterministic: two runs over
equal scan results with identical arguments produce byte-identical build.ninja
texts, and the per-file edge mapping is pure -- identical inputs always yield
identical (input, output) token pairs. -/
theorem graph_generation_deterministic (cfg : Cfg) (hd thisDir : Pth) (obsidian : Bool)
    (orgs1 mds1 orgs2 mds2 : List Pth) (ho : orgs1 = orgs2) (hm : mds1 = mds2) :
    ninjaText cfg hd thisDir obsidian orgs1 mds1 = ninjaText cfg hd thisDir obsidian orgs2 mds2 ∧
    ∀ f1 f2 : Pth, f1 = f2 → make_in_out cfg f1 = make_in_out cfg f2 := by
  subst ho
  subst hm
  exact ⟨rfl, fun f1 f2 h => by rw [h]⟩

/-- Witness for C7 on a concrete one-file tree. -/
theorem graph_generation_deterministic_witness :
    ninjaText ⟨["i".toList], ["o".toList]⟩ ["h".toList] ["t".toList] false
        [["a.org".toList]] [["b.md".toList]] =
      ninjaText ⟨["i".toList], ["o".toList]⟩ ["h".toList] ["t".toList] false
        [["a.org".toList]] [["b.md".toList]] :=
  (graph_generation_deterministic ⟨["i".toList], ["o".toList]⟩ ["h".toList] ["t".toList]
    false [["a.org".toList]] [["b.md".toList]] [["a.org".toList]] [["b.md".toList]]
    rfl rfl).1

/-- Claim C6: when the destination root contains no marker segment, the run
aborts as MissingMarker before any scanning, before any part of the graph
description is produced, and before the external executor is invoked: the
outcome is exactly `missingMarker 0`, never a `ran` outcome carrying a graph. -/
theorem missing_marker_aborts (outParts orgDir thisDir : Pth) (obsidian : Bool)
    (orgs mds : List Pth) (ee : Nat) (h : hugo_dir outParts = none) :
    runMain outParts orgDir thisDir obsidian orgs mds ee = RunOutcome.missingMarker 0 ∧
    ∀ g e2 x, runMain outParts orgDir thisDir obsidian orgs mds ee ≠ RunOutcome.ran g e2 x := by
  constructor
  · unfold runMain
    rw [h]
  · intro g e2 x hcontra
    unfold runMain at hcontra
    rw [h] at hcontra
    exact RunOutcome.noConfusion hcontra

/-- Witness for C6 at the markerless destination `/a/b`. -/
theorem missing_marker_aborts_witness :
    hugo_dir ["a".toList, "b".toList] = none ∧
    runMain ["a".toList, "b".toList] ["i".toList] ["t".toList] false [] [] 3 =
      RunOutcome.missingMarker 0 :=
  ⟨by decide,
    (missing_marker_aborts ["a".toList, "b".toList] ["i".toList] ["t".toList] false [] [] 3
      (by decide)).1⟩

/-- Counterexample to claim C1 as stated: a run that reaches the executor
invocation, with the executor exiting 5, still terminates with process exit
code 0 -- the return value of `subprocess.call` is discarded, so the
executor's exit code is not propagated. -/
theorem exit_code_propagation_cex :
    reachedExecutor (runMain ["s".toList, contentSeg, "p".toList] ["i".toList] ["t".toList]
      false [] [] 5) = true ∧
    exitCodeOf (runMain ["s".toList, contentSeg, "p".toList] ["i".toList] ["t".toList]
      false [] [] 5) ≠ 5 := by
  constructor
  · rfl
  · decide

/-- Claim C1 (amended): for every run that reaches executor invocation, the
program's own exit code is 0 regardless of the executor's exit code: the
executor's exit status is discarded, not propagated. -/
theorem exit_code_discarded (outParts orgDir thisDir : Pth) (obsidian : Bool)
    (orgs mds : List Pth) (ee : Nat)
    (h : reachedExecutor (runMain outParts orgDir thisDir obsidian orgs mds ee) = true) :
    exitCodeOf (runMain outParts orgDir thisDir obsidian orgs mds ee) = 0 := by
  cases hh : hugo_dir outParts with
  | none => unfold runMain; rw [hh]; rfl
  | some hd => unfold runMain; rw [hh]; rfl

/-- Witness for C1 (amended) on a run with marker present and executor exit 7. -/
theorem exit_code_discarded_witness :
    reachedExecutor (runMain ["s".toList, contentSeg, "p".toList] ["i".toList] ["t".toList]
      false [] [] 7) = true ∧
    exitCodeOf (runMain ["s".toList, contentSeg, "p".toList] ["i".toList] ["t".toList]
      false [] [] 7) = 0 :=
  ⟨rfl, exit_code_discarded ["s".toList, contentSeg, "p".toList] ["i".toList] ["t".toList]
    false [] [] 7 rfl⟩

/-- Claim C10: when the marker segment is absent from the destination root the
process terminates with exit status 0 (after printing the guidance message),
and indeed every run of the script exits with status 0, so the fatal
MissingMarker configuration error is not distinguishable from success by exit
code. -/
theorem missing_marker_exit_zero (outParts orgDir thisDir : Pth) (obsidian : Bool)
    (orgs mds : List Pth) (ee : Nat) :
    (hugo_dir outParts = none →
      runMain outParts orgDir thisDir obsidian orgs mds ee = RunOutcome.missingMarker 0) ∧
    exitCodeOf (runMain outParts orgDir thisDir obsidian orgs mds ee) = 0 := by
  constructor
  · intro h
    unfold runMain
    rw [h]
  · cases hh : hugo_dir outParts with
    | none => unfold runMain; rw [hh]; rfl
    | some hd => unfold runMain; rw [hh]; rfl

/-- Witness for C10 at the markerless destination `/a/b`. -/
theorem missing_marker_exit_zero_witness :
    hugo_dir ["a".toList, "b".toList] = none ∧
    runMain ["a".toList, "b".toList] ["i".toList] ["t".toList] false [] [] 9 =
      RunOutcome.missingMarker 0 ∧
    exitCodeOf (runMain ["a".toList, "b".toList] ["i".toList] ["t".toList] false [] [] 9) = 0 :=
  ⟨by decide,
    (missing_marker_exit_zero ["a".toList, "b".toList] ["i".toList] ["t".toList]
      false [] [] 9).1 (by decide),
    (missing_marker_exit_zero ["a".toList, "b".toList] ["i".toList] ["t".toList]
      false [] [] 9).2⟩

end Braindump
